import Mathlib

/-!
Verification of the GeminiTL translation pipeline against its specification.

The Python modules under verification are shallowly embedded below:
text is modelled as `List Char`; the external generative model is an
oracle parameter giving the outcome of each network call; file contents
are explicit values.  Each definition is translated from the named
source function.
-/

namespace GeminiTL

/-! ## Python string primitives (over `List Char`)

Character-level models of the Python `str` operations the embedded code
uses.  Python's Unicode-aware classes (`\w`, `\s`, `str.lower`) are
modelled on their ASCII fragment, which covers every concrete string the
theorems below evaluate; the quantified theorems do not depend on the
exact character class.
-/

/-- Python `\s` (ASCII fragment): the whitespace characters recognised by
`str.strip`, `str.isspace` and the regex class `\s`. -/
def pyIsSpace (c : Char) : Bool :=
  c = ' ' || c = '\t' || c = '\n' || c = '\x0d' || c = '\x0b' || c = '\x0c'

/-- Python `\w` (ASCII fragment): alphanumerics and underscore. -/
def isWordChar (c : Char) : Bool :=
  c.isAlphanum || c = '_'

/-- Python `str.strip()`: drop leading and trailing whitespace. -/
def pyStrip (s : List Char) : List Char :=
  ((s.dropWhile pyIsSpace).reverse.dropWhile pyIsSpace).reverse

/-- Python `str.lower()` (ASCII fragment). -/
def pyLower (s : List Char) : List Char :=
  s.map Char.toLower

/-- Characters Python `str.splitlines` treats as line boundaries. -/
def isLineBoundary (c : Char) : Bool :=
  c = '\n' || c = '\x0d' || c = '\x0b' || c = '\x0c' ||
  c = '\x1c' || c = '\x1d' || c = '\x1e' || c = '\x85' ||
  c = '\u2028' || c = '\u2029'

/-- Helper for `splitlinesPy`: `cur` is the current line, reversed. -/
def splitlinesAux : List Char → List Char → List (List Char)
  | [], cur => if cur.isEmpty then [] else [cur.reverse]
  | '\x0d' :: '\n' :: rest, cur => cur.reverse :: splitlinesAux rest []
  | c :: rest, cur =>
    if isLineBoundary c then cur.reverse :: splitlinesAux rest []
    else splitlinesAux rest (c :: cur)

/-- Python `str.splitlines()`: no trailing empty line is produced. -/
def splitlinesPy (s : List Char) : List (List Char) :=
  splitlinesAux s []

/-- Does `s` begin with `pat`?  (Python slice comparison / regex literal.) -/
def beginsWith : List Char → List Char → Bool
  | [], _ => true
  | _ :: _, [] => false
  | p :: ps, c :: cs => p = c && beginsWith ps cs

/-- Python substring test `pat in s`. -/
def containsSub (pat : List Char) : List Char → Bool
  | [] => beginsWith pat []
  | c :: rest => beginsWith pat (c :: rest) || containsSub pat rest

/-- Fuelled worker for `splitOnSub`; fuel at least the length of the input
makes the fuel-exhaustion branch unreachable. -/
def splitOnSubF (sep : List Char) : Nat → List Char → List (List Char)
  | 0, s => [s]
  | _ + 1, [] => [[]]
  | fuel + 1, c :: rest =>
    if sep ≠ [] ∧ beginsWith sep (c :: rest) = true then
      [] :: splitOnSubF sep fuel ((c :: rest).drop sep.length)
    else
      match splitOnSubF sep fuel rest with
      | [] => [[c]]
      | seg :: segs => (c :: seg) :: segs

/-- Python `str.split(sep)` for a nonempty separator `sep`. -/
def splitOnSub (sep s : List Char) : List (List Char) :=
  splitOnSubF sep s.length s

/-- Numeric value of a decimal digit character. -/
def digitVal (c : Char) : Nat := c.toNat - 48

/-- Decimal digit character for `n < 10`. -/
def digitChar (n : Nat) : Char := Char.ofNat (48 + n)

/-- Python `int(...)` on a string of decimal digits. -/
def digitsToNat (ds : List Char) : Nat :=
  ds.foldl (fun a c => 10 * a + digitVal c) 0

/-- Fuelled worker for `natDigits`. -/
def natDigitsF : Nat → Nat → List Char
  | 0, _ => []
  | fuel + 1, n =>
    if n < 10 then [digitChar n]
    else natDigitsF fuel (n / 10) ++ [digitChar (n % 10)]

/-- Decimal digits of `n`, most significant first (Python `str(n)`). -/
def natDigits (n : Nat) : List Char := natDigitsF (n + 1) n

/-- Worker for `collapseSpaces`; the flag records whether the previous
character was whitespace (so the run has already been replaced). -/
def collapseSpacesGo : Bool → List Char → List Char
  | _, [] => []
  | inRun, c :: rest =>
    if pyIsSpace c then
      (if inRun then [] else [' ']) ++ collapseSpacesGo true rest
    else c :: collapseSpacesGo false rest

/-- Python `re.sub(r'\s+', ' ', s)`: each maximal whitespace run becomes
a single space. -/
def collapseSpaces (s : List Char) : List Char :=
  collapseSpacesGo false s

/-! ## Chapter ordering (`src/translation/main_ph.py`, `numeric_key`, C9)

`main` sorts the chapter file list once with
`sorted(files, key=numeric_key)` and both the glossary-build phase and
the translation phase iterate over that one sorted list.
`numeric_key` is `int(re.search(r'\d+', filename).group())` when the
filename contains a digit, else `float('inf')`; `none` models `inf`.
Python's `sorted` is a stable sort by key; `sortByNumericKey` is the
extensionally equal stable insertion sort. -/

/-- First maximal run of decimal digits in `s` (`re.search(r'\d+', s)`). -/
def firstDigitRun : List Char → Option (List Char)
  | [] => none
  | c :: rest =>
    if c.isDigit then some (c :: rest.takeWhile Char.isDigit)
    else firstDigitRun rest

/-- The sort key of `numeric_key`: `none` models `float('inf')`. -/
def numeric_key (s : List Char) : Option Nat :=
  (firstDigitRun s).map digitsToNat

/-- Order on sort keys; `none` (infinity) is above every number. -/
def keyLe : Option Nat → Option Nat → Bool
  | some a, some b => a ≤ b
  | some _, none => true
  | none, some _ => false
  | none, none => true

/-- Stable insertion: `x` goes after every element whose key is `≤` its
key, so equal keys keep their original relative order, as in Python's
stable `sorted`. -/
def insertByKey (x : List Char) : List (List Char) → List (List Char)
  | [] => [x]
  | y :: ys =>
    if keyLe (numeric_key y) (numeric_key x) then y :: insertByKey x ys
    else x :: y :: ys

/-- Python `sorted(files, key=numeric_key)`. -/
def sortByNumericKey (l : List (List Char)) : List (List Char) :=
  l.foldr insertByKey []

/-! ## Translator (`src/translation/translator.py`, C1, C2, C3)

The Gemini service is abstracted as an oracle mapping each underlying
`generate_content` call (numbered globally, in order) and its prompt to
an outcome.  The outcome constructors are the cases
`Translator.generate_with_instructions` distinguishes: a reply text, the
90-second `concurrent.futures.TimeoutError`, an exception classified as
a content block (message contains `Response has no candidates`, or JSON
with `block_reason == "PROHIBITED_CONTENT"`), and every other exception.
-/

/-- Outcome of one underlying `generate_content` call. -/
inductive Outcome where
  | ok (reply : List Char)
  | timeout
  | excBlock
  | excOther
  deriving DecidableEq, Repr

/-- Which instruction set a call was issued under. -/
inductive Label where
  | primary
  | secondary
  deriving DecidableEq, Repr

/-- How one `generate_with_instructions` invocation ends: a returned
text, the implicit `None` return when `max_retries == 0`, the
`RuntimeError("PROHIBITED_CONTENT_BLOCK")` raise, or the re-raise after
the final failed attempt. -/
inductive GenResult where
  | retText (t : List Char)
  | retNone
  | raiseBlock
  | raiseOther
  deriving DecidableEq, Repr

/-- The retry loop of `Translator.generate_with_instructions`
(translator.py lines 118-152): up to `remaining` attempts; a reply
returns; a block-classified exception raises at once; a timeout or
other exception is retried, and after the last attempt the exception
propagates.  Returns the result, the next global call index, and the
label of each call made. -/
def genRun (oracle : Nat → List Char → Outcome) (lbl : Label)
    (prompt : List Char) : Nat → Nat → GenResult × Nat × List Label
  | callIdx, 0 => (.retNone, callIdx, [])
  | callIdx, remaining + 1 =>
    match oracle callIdx prompt with
    | .ok t => (.retText t, callIdx + 1, [lbl])
    | .excBlock => (.raiseBlock, callIdx + 1, [lbl])
    | .timeout | .excOther =>
      if remaining = 0 then (.raiseOther, callIdx + 1, [lbl])
      else
        let out := genRun oracle lbl prompt (callIdx + 1) remaining
        (out.1, out.2.1, lbl :: out.2.2)

/-- The literal `<img` opening the pattern `<img[^>]*>`. -/
def imgOpen : List Char := "<img".data

/-- Scan to the first `'>'`: the characters before it and the rest
after it (the greedy `[^>]*>` tail of the image-tag regex). -/
def splitAtGt : List Char → Option (List Char × List Char)
  | [] => none
  | c :: rest =>
    if c = '>' then some ([], rest)
    else (splitAtGt rest).map fun p => (c :: p.1, p.2)

/-- The literal `__IMAGE_TAG_` opening a placeholder token, as an
explicit character list. -/
def phOpen : List Char :=
  ['_', '_', 'I', 'M', 'A', 'G', 'E', '_', 'T', 'A', 'G', '_']

/-- The placeholder `f"__IMAGE_TAG_{i}__"` substituted for the `i`-th
image tag. -/
def placeholderTok (i : Nat) : List Char :=
  phOpen ++ natDigits i ++ ['_', '_']

/-- Fuelled worker for `imgTagSub`: Python
`re.compile(r'(<img[^>]*>)').sub(store_image_tag, text)`, which replaces
each leftmost non-overlapping match with `__IMAGE_TAG_i__` and appends
the matched tag to `tags`. -/
def imgTagSubF : Nat → List Char → List (List Char) →
    List Char × List (List Char)
  | 0, s, tags => (s, tags)
  | _ + 1, [], tags => ([], tags)
  | fuel + 1, c :: rest, tags =>
    if beginsWith imgOpen (c :: rest) then
      match splitAtGt ((c :: rest).drop 4) with
      | some (inner, after) =>
        let tag := imgOpen ++ inner ++ ['>']
        let out := imgTagSubF fuel after (tags ++ [tag])
        (placeholderTok tags.length ++ out.1, out.2)
      | none =>
        let out := imgTagSubF fuel rest tags
        (c :: out.1, out.2)
    else
      let out := imgTagSubF fuel rest tags
      (c :: out.1, out.2)

/-- Image-tag extraction of `Translator.translate` (translator.py lines
168-176): the text with placeholders substituted, and the stored tags. -/
def imgTagSub (s : List Char) : List Char × List (List Char) :=
  imgTagSubF s.length s []

/-- Fuelled worker for `restoreTags`: Python
`re.sub(r'__IMAGE_TAG_(\d+)__', restore_image_tag, translated)`.  A
match needs the literal, then a maximal nonempty digit run, then `__`;
an in-range index is replaced by the stored tag, an out-of-range one is
left as the matched text. -/
def restoreScanF (tags : List (List Char)) : Nat → List Char → List Char
  | 0, s => s
  | _ + 1, [] => []
  | fuel + 1, c :: rest =>
    if beginsWith phOpen (c :: rest) then
      let s2 := (c :: rest).drop 12
      let digits := s2.takeWhile Char.isDigit
      let after := s2.dropWhile Char.isDigit
      if digits.isEmpty = false ∧ beginsWith ['_', '_'] after = true then
        (if digitsToNat digits < tags.length then tags.getD (digitsToNat digits) []
         else (c :: rest).take (12 + digits.length + 2)) ++
          restoreScanF tags fuel (after.drop 2)
      else c :: restoreScanF tags fuel rest
    else c :: restoreScanF tags fuel rest

/-- Placeholder restoration of `Translator.translate` (translator.py
lines 234-241). -/
def restoreTags (tags : List (List Char)) (s : List Char) : List Char :=
  restoreScanF tags s.length s

/-- The prompt `Translator.translate` sends: the input with image tags
replaced by placeholders. -/
def substitutedPrompt (text : List Char) : List Char :=
  (imgTagSub text).1

/-- Observable behaviour of one `Translator.translate` call. -/
structure TranslateResult where
  /-- the returned translation, `none` for Python `None` -/
  result : Option (List Char)
  /-- instruction-set label of each underlying model call, in order -/
  callTrace : List Label
  /-- each `generate_with_instructions` invocation: its instruction set,
  its prompt, and its `max_retries` bound, in order -/
  invocations : List (Label × List Char × Nat)
  deriving DecidableEq, Repr

/-- Model of `Translator.translate` (translator.py lines 154-242): substitute
image tags, try the primary instruction set with `max_retries=3`; on a
`PROHIBITED_CONTENT_BLOCK` raise try the secondary set once with
`max_retries=2`; any other raise, a second block, or a falsy text gives
`None`; a reply has its placeholders restored. -/
def translate (oracle : Nat → List Char → Outcome) (text : List Char) :
    TranslateResult :=
  let prompt := substitutedPrompt text
  let tags := (imgTagSub text).2
  match genRun oracle .primary prompt 0 3 with
  | (.retText t, _, tr) =>
    { result := if t = [] then none else some (restoreTags tags t),
      callTrace := tr, invocations := [(.primary, prompt, 3)] }
  | (.retNone, _, tr) =>
    { result := none, callTrace := tr, invocations := [(.primary, prompt, 3)] }
  | (.raiseOther, _, tr) =>
    { result := none, callTrace := tr, invocations := [(.primary, prompt, 3)] }
  | (.raiseBlock, n, tr) =>
    match genRun oracle .secondary prompt n 2 with
    | (.retText t, _, tr2) =>
      { result := if t = [] then none else some (restoreTags tags t),
        callTrace := tr ++ tr2,
        invocations := [(.primary, prompt, 3), (.secondary, prompt, 2)] }
    | (.retNone, _, tr2) =>
      { result := none, callTrace := tr ++ tr2,
        invocations := [(.primary, prompt, 3), (.secondary, prompt, 2)] }
    | (.raiseOther, _, tr2) =>
      { result := none, callTrace := tr ++ tr2,
        invocations := [(.primary, prompt, 3), (.secondary, prompt, 2)] }
    | (.raiseBlock, _, tr2) =>
      { result := none, callTrace := tr ++ tr2,
        invocations := [(.primary, prompt, 3), (.secondary, prompt, 2)] }

/-! ## Glossary store (`src/translation/glossary.py`, C5, C8)

The master-file marker lines, exactly as the parsing code and
`split_glossary` write them (`ensure_glossary_exists` writes an END
line with one more `=`; the parsers split on the shorter string). -/

/-- The `GLOSSARY START` marker line. -/
def glossStart : List Char :=
  "==================================== GLOSSARY START ===============================".data

/-- The `GLOSSARY END` marker line as the parsers split on it. -/
def glossEnd : List Char :=
  "==================================== GLOSSARY END ================================".data

/-- The separator of glossary entry fields. -/
def arrowSep : List Char := "=>".data

/-- Python `re.sub(r'[^\w\s]', '', s)`. -/
def keepWordSpace (s : List Char) : List Char :=
  s.filter fun c => isWordChar c || pyIsSpace c

/-- Model of `Glossary.normalize_term` (glossary.py lines 77-92):
`re.sub(r'[^\w\s]', '', term)` then
`re.sub(r'\s+', ' ', normalized.strip().lower())`. -/
def normalize_term (term : List Char) : List Char :=
  collapseSpaces (pyLower (pyStrip (keepWordSpace term)))

/-- The normalization algorithm as WORDED BY THE SPEC (spec.md §4.2):
Unicode compatibility normalization, strip all whitespace, strip all
characters except word characters and hyphen, lowercase.  Written for
comparison with `normalize_term`; the NFKC step is modelled as the
identity, which is exact on the ASCII inputs it is evaluated at. -/
def specNormalizeTerm (term : List Char) : List Char :=
  pyLower (((term.filter fun c => pyIsSpace c = false).filter
    fun c => isWordChar c || c = '-'))

/-- The load of existing entries in `Glossary.build_glossary`
(glossary.py lines 117-125): the lines strictly between the markers
that are nonblank; a file without the START marker yields `[]`. -/
def loadExistingEntries (content : List Char) : List (List Char) :=
  match splitOnSub glossStart content with
  | _ :: second :: _ =>
    let middle := (splitOnSub glossEnd second).headD []
    (splitlinesPy middle).filter fun l => pyStrip l ≠ []
  | _ => []

/-- The per-line candidate parse in `Glossary.build_glossary` (glossary.py
lines 164-174): a line must split on `=>` into exactly three fields; the
term and meaning are cleaned with `re.sub(r'[^\w\s]', '', ...strip())`
and must be nonempty; the entry is re-rendered as
`f"{term} => {meaning} => {gender}"`. -/
def candidateOfLine (line : List Char) : Option (List Char) :=
  let parts := splitOnSub arrowSep line
  if parts.length = 3 then
    let term := keepWordSpace (pyStrip (parts.getD 0 []))
    let meaning := keepWordSpace (pyStrip (parts.getD 1 []))
    let gender := pyStrip (parts.getD 2 [])
    if term ≠ [] ∧ meaning ≠ [] then
      some (term ++ " => ".data ++ meaning ++ " => ".data ++ gender)
    else none
  else none

/-- Candidate entries from the response lines. -/
def parseFromLines (lines : List (List Char)) : List (List Char) :=
  lines.filterMap candidateOfLine

/-- Candidate entries from the model response
(`new_glossary.split("\n")`, then the per-line parse). -/
def parseCandidates (resp : List Char) : List (List Char) :=
  parseFromLines (splitOnSub ['\n'] resp)

/-- The set of normalized originals already present (glossary.py lines
181-185): only three-field lines contribute. -/
def existingNormalizedTerms (existing : List (List Char)) : List (List Char) :=
  existing.filterMap fun entry =>
    let parts := splitOnSub arrowSep entry
    if parts.length = 3 then some (normalize_term (parts.getD 0 [])) else none

/-- One step of the new-entry filter (glossary.py lines 188-195): the
state is the seen-set of normalized originals and the accepted entries. -/
def selectStep (acc : List (List Char) × List (List Char)) (entry : List Char) :
    List (List Char) × List (List Char) :=
  let parts := splitOnSub arrowSep entry
  if parts.length = 3 then
    let term := pyStrip (parts.getD 0 [])
    if normalize_term term ∈ acc.1 then acc
    else (normalize_term term :: acc.1, acc.2 ++ [entry])
  else acc

/-- The entries of the candidate list that are net-new relative to the
seen normalized originals. -/
def selectNewEntries (seen : List (List Char)) (cands : List (List Char)) :
    List (List Char) :=
  (cands.foldl selectStep (seen, [])).2

/-- The net-new entries one `Glossary.build_glossary` call appends for a
master file with content `content` and a model response `resp`
(glossary.py lines 157-195): an empty or `No named entities found`
response contributes nothing. -/
def buildGlossaryUpdate (content resp : List Char) : List (List Char) :=
  let ng := pyStrip resp
  if ng = [] ∨ containsSub "No named entities found".data ng = true then []
  else
    selectNewEntries
      (existingNormalizedTerms (loadExistingEntries content))
      (parseCandidates ng)

/-! ## Glossary splitting (`src/translation/context_aware_glossary.py`,
C6, C8) -/

/-- One line of `split_glossary`'s parse loop (context_aware_glossary.py
lines 34-49): lines without `=>` are skipped; three or more fields feed
both sub-glossaries; exactly two fields feed only the name glossary. -/
def splitLineStep
    (acc : List (List Char × List Char) × List (List Char × List Char))
    (line : List Char) :
    List (List Char × List Char) × List (List Char × List Char) :=
  if containsSub arrowSep line = false then acc
  else
    let ps := splitOnSub arrowSep (pyStrip line)
    if 3 ≤ ps.length then
      (acc.1 ++ [(pyStrip (ps.getD 0 []), pyStrip (ps.getD 1 []))],
       acc.2 ++ [(pyStrip (ps.getD 1 []), pyStrip (ps.getD 2 []))])
    else if ps.length = 2 then
      (acc.1 ++ [(pyStrip (ps.getD 0 []), pyStrip (ps.getD 1 []))], acc.2)
    else acc

/-- Render one two-field glossary file: marker, `a => b` lines, marker. -/
def renderPairs (entries : List (List Char × List Char)) : List Char :=
  glossStart ++ ['\n'] ++
  (entries.flatMap fun e => e.1 ++ " => ".data ++ e.2 ++ ['\n']) ++
  glossEnd ++ ['\n']

/-- Computation by `split_glossary` of the two derived files from the
master content (context_aware_glossary.py lines 25-63).  A master
without the START marker raises
`ValueError("Invalid glossary format: missing START marker")`,
modelled by `Except.error`. -/
def splitMasterContent (content : List Char) :
    Except (List Char) (List Char × List Char) :=
  if containsSub glossStart content = false then
    .error "Invalid glossary format: missing START marker".data
  else
    let entries :=
      match splitOnSub glossStart content with
      | _ :: second :: _ =>
        let glossaryText := pyStrip ((splitOnSub glossEnd second).headD [])
        (splitlinesPy glossaryText).foldl splitLineStep ([], [])
      | _ => ([], [])
    .ok (renderPairs entries.1, renderPairs entries.2)

/-- The files `split_glossary` touches: it reads the master and writes
the two derived files (context_aware_glossary.py lines 25, 52, 59). -/
structure GlossaryDir where
  master : List Char
  nameGlossary : Option (List Char)
  contextGlossary : Option (List Char)
  deriving DecidableEq, Repr

/-- Model of `split_glossary` at the file-system level: the master is only read;
on success the two derived files are overwritten. -/
def split_glossary (d : GlossaryDir) : Except (List Char) GlossaryDir :=
  match splitMasterContent d.master with
  | .ok p =>
    .ok { master := d.master, nameGlossary := some p.1,
          contextGlossary := some p.2 }
  | .error e => .error e

/-! ## Gender-pronoun proofing (`src/proofing/gender_proofing.py`, C7)

One attempt of `proof_gender_pronouns` either fails before a response
is available (`call_with_timeout` unsuccessful, or an exception in the
handler) and is retried, or yields a response object whose `.text` is
modelled by `Option (List Char)` (`none` for a falsy response). -/

/-- Outcome of one attempt of the gender-proofing call. -/
inductive GPOutcome where
  | failed
  | success (respText : Option (List Char))
  deriving DecidableEq, Repr

/-- The trivial outputs rejected by `proof_gender_pronouns`
(gender_proofing.py lines 99-101). -/
def noChangePhrases : List (List Char) :=
  ["no changes needed".data, "no edits necessary".data,
   "unchanged".data, "no change needed".data]

/-- The line-count guard of gender_proofing.py line 108,
`len(result_lines) < max(5, 0.2 * len(orig_lines))`, in exact integer
form: for natural numbers `k < max(5, n/5 : ℚ)` iff `k < 5 ∨ 5*k < n`,
and for every feasible line count (`n < 2^52`) the Python float product
`0.2 * n` rounds to exactly `n/5` whenever `5 ∣ n` and otherwise lands
strictly between the neighbouring integers, so the float comparison and
the exact rational one agree. -/
def tooShortGuard (resLines origLines : Nat) : Bool :=
  resLines < 5 || 5 * resLines < origLines

/-- The response handling of `proof_gender_pronouns`
(gender_proofing.py lines 88-115): a falsy response object or falsy
`.text`, an empty stripped result, a known no-change phrase, or a
too-short result all return the original `text`; otherwise the stripped
result is returned. -/
def handleResponse (text : List Char) (respText : Option (List Char)) :
    List Char :=
  match respText with
  | none => text
  | some rt =>
    if rt = [] then text
    else
      let result := pyStrip rt
      if result = [] then text
      else if pyStrip (pyLower result) ∈ noChangePhrases then text
      else if tooShortGuard (splitlinesPy result).length
          (splitlinesPy (pyStrip text)).length then text
      else result

/-- The retry loop of `proof_gender_pronouns` (gender_proofing.py lines
65-124): failed attempts are retried; the first response is handled and
returned; exhausting `max_retries` returns the original text. -/
def gpLoop (oracle : Nat → GPOutcome) (text : List Char) :
    Nat → Nat → List Char
  | _, 0 => text
  | attempt, remaining + 1 =>
    match oracle attempt with
    | .failed => gpLoop oracle text (attempt + 1) remaining
    | .success rt => handleResponse text rt

/-- Model of `proof_gender_pronouns` (gender_proofing.py lines 14-124) with its
default `max_retries=3`: empty input is returned unchanged at once. -/
def proof_gender_pronouns (oracle : Nat → GPOutcome) (text : List Char) :
    List Char :=
  if pyStrip text = [] then text else gpLoop oracle text 0 3

/-- A model response the guards of `handleResponse` reject: falsy, or
empty once stripped, or a known no-change phrase, or fewer lines than
`max(5, 20%)` of the original. -/
def degenerateResponse (text : List Char) (respText : Option (List Char)) :
    Prop :=
  match respText with
  | none => True
  | some rt =>
    rt = [] ∨ pyStrip rt = [] ∨ pyStrip (pyLower (pyStrip rt)) ∈ noChangePhrases ∨
    tooShortGuard (splitlinesPy (pyStrip rt)).length
      (splitlinesPy (pyStrip text)).length = true

/-! ## Translation-phase loop (`src/translation/main_ph.py` lines
104-138, C4)

Phase 2 of `main`.  Per chapter, in this order: the banner is logged,
`cancel_flag()` is sampled (a `true` breaks the loop), `pause_event.wait()`
blocks (modelled as an event with no state effect), then the chapter is
translated and, on success, its output file written.  `cancelAt i` is
the value `cancel_flag()` returns at chapter `i`'s checkpoint; `tr f`
is the translation result for file `f` (`none` models a `None` from
`translate`, whose chapter is skipped). -/

/-- Observable control events of the phase-2 loop, carrying the chapter
index. -/
inductive Ev where
  | checkCancel (i : Nat)
  | waitPause (i : Nat)
  | process (i : Nat)
  deriving DecidableEq, Repr

/-- The phase-2 loop: returns the written output files (filename paired
with translated content, in order) and the event trace. -/
def phase2 (cancelAt : Nat → Bool) (tr : List Char → Option (List Char)) :
    List (List Char) → Nat → List (List Char × List Char) × List Ev
  | [], _ => ([], [])
  | f :: fs, i =>
    if cancelAt i then ([], [.checkCancel i])
    else
      let rest := phase2 cancelAt tr fs (i + 1)
      match tr f with
      | none =>
        (rest.1, .checkCancel i :: .waitPause i :: .process i :: rest.2)
      | some out =>
        ((f, out) :: rest.1,
         .checkCancel i :: .waitPause i :: .process i :: rest.2)

/-- The event trace the phase-2 loop produces when the cancel flag first
reads true at chapter `s + k`: one `checkCancel, waitPause, process`
block per processed chapter, then (when a chapter was left) one final
`checkCancel` — and no `checkCancel` between a `waitPause` and its
chapter's `process`. -/
def expectedTrace (finalCheck : Bool) : Nat → Nat → List Ev
  | s, 0 => if finalCheck then [Ev.checkCancel s] else []
  | s, k + 1 =>
    Ev.checkCancel s :: Ev.waitPause s :: Ev.process s ::
      expectedTrace finalCheck (s + 1) k

/-! ## call_with_timeout (`src/proofing/utils.py` lines 60-81, C10)

The worker thread's fate is abstracted as a `CWTBehavior`: the wrapped
call returns a value before the join deadline, raises an
`Exception`-derived error, raises a `BaseException` outside `Exception`
(which the wrapper's `except Exception` does not catch), or is still
running when `thread.join(timeout)` returns. -/

/-- Behaviour of the wrapped function within the join window. -/
inductive CWTBehavior where
  | returns (v : List Char)
  | raisesExc (e : List Char)
  | raisesBase
  | hangs
  deriving DecidableEq, Repr

/-- The value slot of `call_with_timeout`'s returned pair. -/
inductive CWTValue where
  | result (v : List Char)
  | excVal (e : List Char)
  | timeoutErr (timeout : Nat)
  deriving DecidableEq, Repr

/-- The `result_container` dict after the worker thread is done. -/
structure RC where
  result : Option (List Char) := none
  exception : Option (List Char) := none
  deriving DecidableEq, Repr

/-- The `wrapper` closure (utils.py lines 67-71): `except Exception`
stores an `Exception`; a `BaseException` escapes the thread and leaves
the container empty; a hung call has stored nothing by the deadline. -/
def wrapper : CWTBehavior → RC
  | .returns v => { result := some v }
  | .raisesExc e => { exception := some e }
  | .raisesBase => {}
  | .hangs => {}

/-- Value of `thread.is_alive()` after `thread.join(timeout)`. -/
def threadAliveAfterJoin : CWTBehavior → Bool
  | .hangs => true
  | _ => false

/-- Model of `call_with_timeout` (utils.py lines 60-81).  The final
`result_container["result"]` lookup raises `KeyError` when the key was
never stored, modelled by `Except.error`. -/
def call_with_timeout (b : CWTBehavior) (timeout : Nat) :
    Except (List Char) (Bool × CWTValue) :=
  let rc := wrapper b
  if threadAliveAfterJoin b then .ok (false, .timeoutErr timeout)
  else
    match rc.exception with
    | some e => .ok (false, .excVal e)
    | none =>
      match rc.result with
      | some v => .ok (true, .result v)
      | none => .error "KeyError: result".data

/-- Interleaving of text segments with the placeholder tokens numbered
from `k`: the shape of a model reply that keeps every substituted token
in place. -/
def segsWithTokens (k : Nat) : List (List Char) → List Char
  | [] => []
  | s :: tail =>
    match tail with
    | [] => s
    | _ :: _ => s ++ placeholderTok k ++ segsWithTokens (k + 1) tail

/-- The same interleaving with the stored tags substituted back. -/
def segsWithTags (tags : List (List Char)) (k : Nat) :
    List (List Char) → List Char
  | [] => []
  | s :: tail =>
    match tail with
    | [] => s
    | _ :: _ => s ++ tags.getD k [] ++ segsWithTags tags (k + 1) tail

/-- The normalized original of a rendered glossary entry, exactly as
`build_glossary`'s duplicate filter computes it. -/
def candidateNormKey (u : List Char) : List Char :=
  normalize_term (pyStrip ((splitOnSub arrowSep u).getD 0 []))

/-!
# Theorems
-/

theorem beginsWith_iff (p : List Char) :
    ∀ s, beginsWith p s = true ↔ ∃ t, s = p ++ t := by
  induction p with
  | nil =>
    intro s
    simp [beginsWith]
  | cons a ps ih =>
    intro s
    cases s with
    | nil =>
      simp [beginsWith]
    | cons c cs =>
      simp only [beginsWith, Bool.and_eq_true, decide_eq_true_eq, ih cs]
      constructor
      · rintro ⟨rfl, t, rfl⟩
        exact ⟨t, rfl⟩
      · rintro ⟨t, h⟩
        injection h with h1 h2
        exact ⟨h1.symm, t, h2⟩

theorem beginsWith_append (p t : List Char) : beginsWith p (p ++ t) = true :=
  (beginsWith_iff p (p ++ t)).2 ⟨t, rfl⟩

theorem beginsWith_length {p s : List Char} (h : beginsWith p s = true) :
    p.length ≤ s.length := by
  obtain ⟨t, rfl⟩ := (beginsWith_iff p s).1 h
  simp

theorem containsSub_cons (pat c rest) :
    containsSub pat (c :: rest) =
      (beginsWith pat (c :: rest) || containsSub pat rest) := rfl

theorem takeWhile_append_all {p : Char → Bool} {a : List Char}
    (h : ∀ x ∈ a, p x = true) (b : List Char) :
    (a ++ b).takeWhile p = a ++ b.takeWhile p := by
  induction a with
  | nil => rfl
  | cons x xs ih =>
    have hx : p x = true := h x (by simp)
    simp only [List.cons_append, List.takeWhile_cons, hx, if_true]
    rw [ih fun y hy => h y (by simp [hy])]

theorem dropWhile_append_all {p : Char → Bool} {a : List Char}
    (h : ∀ x ∈ a, p x = true) (b : List Char) :
    (a ++ b).dropWhile p = b.dropWhile p := by
  induction a with
  | nil => rfl
  | cons x xs ih =>
    have hx : p x = true := h x (by simp)
    simp only [List.cons_append, List.dropWhile_cons, hx, if_true]
    exact ih fun y hy => h y (by simp [hy])

theorem natDigitsF_all_digit :
    ∀ fuel n, ∀ c ∈ natDigitsF fuel n, c.isDigit = true := by
  intro fuel
  induction fuel with
  | zero => intro n c hc; simp [natDigitsF] at hc
  | succ g ih =>
    intro n c hc
    by_cases h10 : n < 10
    · simp only [natDigitsF, if_pos h10, List.mem_singleton] at hc
      subst hc
      unfold digitChar
      interval_cases n <;> decide
    · simp only [natDigitsF, if_neg h10, List.mem_append,
        List.mem_singleton] at hc
      rcases hc with hc | hc
      · exact ih _ c hc
      · subst hc
        unfold digitChar
        have : n % 10 < 10 := Nat.mod_lt _ (by omega)
        interval_cases h : n % 10 <;> decide

theorem natDigits_all_digit (n : Nat) : ∀ c ∈ natDigits n, c.isDigit = true :=
  natDigitsF_all_digit (n + 1) n

theorem natDigitsF_ne_nil (fuel n : Nat) (h : 0 < fuel) :
    natDigitsF fuel n ≠ [] := by
  cases fuel with
  | zero => omega
  | succ g =>
    by_cases h10 : n < 10 <;> simp [natDigitsF, h10]

theorem natDigits_ne_nil (n : Nat) : natDigits n ≠ [] :=
  natDigitsF_ne_nil (n + 1) n (by omega)

theorem digitsToNat_append (a b : List Char) :
    digitsToNat (a ++ b) =
      b.foldl (fun x c => 10 * x + digitVal c) (digitsToNat a) := by
  simp [digitsToNat, List.foldl_append]

theorem digitVal_digitChar {n : Nat} (h : n < 10) :
    digitVal (digitChar n) = n := by
  unfold digitVal digitChar
  interval_cases n <;> decide

theorem digitsToNat_natDigitsF :
    ∀ fuel n, n < fuel → digitsToNat (natDigitsF fuel n) = n := by
  intro fuel
  induction fuel with
  | zero => omega
  | succ g ih =>
    intro n hn
    by_cases h10 : n < 10
    · simp [natDigitsF, if_pos h10, digitsToNat,
        digitVal_digitChar h10]
    · have hdiv : n / 10 < g := by
        have h1 : n / 10 < n := Nat.div_lt_self (by omega) (by omega)
        omega
      simp only [natDigitsF, if_neg h10, digitsToNat_append]
      rw [show digitsToNat (natDigitsF g (n / 10)) = n / 10 from ih _ hdiv]
      simp [List.foldl, digitVal_digitChar (Nat.mod_lt n (by omega))]
      omega

theorem digitsToNat_natDigits (n : Nat) : digitsToNat (natDigits n) = n :=
  digitsToNat_natDigitsF (n + 1) n (by omega)

theorem genRun_transient (oracle : Nat → List Char → Outcome) (lbl prompt)
    (h : ∀ n p, oracle n p = .timeout ∨ oracle n p = .excOther) :
    ∀ r k, genRun oracle lbl prompt k (r + 1) =
      (.raiseOther, k + (r + 1), List.replicate (r + 1) lbl) := by
  intro r
  induction r with
  | zero =>
    intro k
    rcases h k prompt with hc | hc <;> simp [genRun, hc]
  | succ m ih =>
    intro k
    have hne : (m + 1) ≠ 0 := Nat.succ_ne_zero m
    rcases h k prompt with hc | hc <;>
    · rw [genRun.eq_2, hc]
      simp only [if_neg hne, ih (k + 1), List.replicate_succ]
      have harith : k + 1 + (m + 1) = k + (m + 1 + 1) := by omega
      rw [harith]

theorem genRun_trace_labels (oracle : Nat → List Char → Outcome) (lbl prompt) :
    ∀ r k, ∀ l ∈ (genRun oracle lbl prompt k r).2.2, l = lbl := by
  intro r
  induction r with
  | zero => intro k l hl; simp [genRun] at hl
  | succ m ih =>
    intro k l hl
    rcases hc : oracle k prompt with _ | _ | _ | _ <;>
      simp only [genRun, hc] at hl
    · simpa using hl
    · by_cases hm : m = 0
      · subst hm; simpa using hl
      · simp only [if_neg hm, List.mem_cons] at hl
        rcases hl with rfl | hl
        · rfl
        · exact ih (k + 1) l hl
    · simpa using hl
    · by_cases hm : m = 0
      · subst hm; simpa using hl
      · simp only [if_neg hm, List.mem_cons] at hl
        rcases hl with rfl | hl
        · rfl
        · exact ih (k + 1) l hl

theorem genRun_trace_length (oracle : Nat → List Char → Outcome) (lbl prompt) :
    ∀ r k, (genRun oracle lbl prompt k r).2.2.length ≤ r ∧
      (0 < r → 1 ≤ (genRun oracle lbl prompt k r).2.2.length) := by
  intro r
  induction r with
  | zero => intro k; simp [genRun]
  | succ m ih =>
    intro k
    rcases hc : oracle k prompt with _ | _ | _ | _ <;>
      simp only [genRun, hc]
    · simp
    · by_cases hm : m = 0
      · subst hm; simp
      · simp only [if_neg hm, List.length_cons]
        have := (ih (k + 1)).1
        constructor
        · omega
        · intro _; omega
    · simp
    · by_cases hm : m = 0
      · subst hm; simp
      · simp only [if_neg hm, List.length_cons]
        have := (ih (k + 1)).1
        constructor
        · omega
        · intro _; omega

/-- C3: when the underlying generation call fails with a transient
(non-content-block) error on every attempt, `Translator.translate`
(whose primary `generate_with_instructions` call is configured with
`max_retries=3`) makes exactly 3 underlying calls and returns the
failure sentinel `None`; the final re-raise is caught inside
`translate`, so no exception reaches its caller. -/
theorem translate_transient_exhaustion (oracle : Nat → List Char → Outcome)
    (text : List Char)
    (h : ∀ n p, oracle n p = .timeout ∨ oracle n p = .excOther) :
    (translate oracle text).result = none ∧
      (translate oracle text).callTrace.length = 3 := by
  have hg := genRun_transient oracle .primary (substitutedPrompt text) h 2 0
  simp [translate, hg]

/-- Witness for `translate_transient_exhaustion` at an always-timing-out
oracle and a concrete text. -/
theorem translate_transient_exhaustion_witness :
    (∀ n p, (fun (_ : Nat) (_ : List Char) => Outcome.timeout) n p = .timeout ∨
      (fun (_ : Nat) (_ : List Char) => Outcome.timeout) n p = .excOther) ∧
    (translate (fun _ _ => Outcome.timeout) "hello world".data).result = none ∧
    (translate (fun _ _ => Outcome.timeout) "hello world".data).callTrace.length = 3 :=
  ⟨fun _ _ => Or.inl rfl,
   translate_transient_exhaustion _ _ (fun _ _ => Or.inl rfl)⟩

/-- C1: when the primary instruction set is blocked for prohibited
content, `Translator.translate` makes exactly one further
`generate_with_instructions` invocation, with the SECONDARY instruction
set, the same prompt and its own bound `max_retries=2`, and never
invokes the primary set again: the invocation list is exactly
primary-then-secondary, and every underlying call after the primary
ones carries the secondary label (between 1 and 2 such calls). -/
theorem translate_block_fallback (oracle : Nat → List Char → Outcome)
    (text : List Char)
    (h : (genRun oracle .primary (substitutedPrompt text) 0 3).1 = .raiseBlock) :
    (translate oracle text).invocations =
      [(.primary, substitutedPrompt text, 3),
       (.secondary, substitutedPrompt text, 2)] ∧
    ∃ t1 t2, (translate oracle text).callTrace = t1 ++ t2 ∧
      (∀ l ∈ t1, l = Label.primary) ∧ (∀ l ∈ t2, l = Label.secondary) ∧
      1 ≤ t2.length ∧ t2.length ≤ 2 := by
  rcases hp : genRun oracle .primary (substitutedPrompt text) 0 3 with ⟨res, n, tr⟩
  rw [hp] at h
  simp only at h
  subst h
  rcases hs : genRun oracle .secondary (substitutedPrompt text) n 2 with ⟨res2, n2, tr2⟩
  have htr1 : ∀ l ∈ tr, l = Label.primary := by
    have := genRun_trace_labels oracle .primary (substitutedPrompt text) 3 0
    rw [hp] at this
    exact this
  have htr2 : ∀ l ∈ tr2, l = Label.secondary := by
    have := genRun_trace_labels oracle .secondary (substitutedPrompt text) 2 n
    rw [hs] at this
    exact this
  have hlen : tr2.length ≤ 2 ∧ (0 < 2 → 1 ≤ tr2.length) := by
    have := genRun_trace_length oracle .secondary (substitutedPrompt text) 2 n
    rw [hs] at this
    exact this
  cases res2 <;>
    · refine ⟨by simp [translate, hp, hs], tr, tr2, by simp [translate, hp, hs],
        htr1, htr2, hlen.2 (by omega), hlen.1⟩

/-- Witness for `translate_block_fallback` at an always-blocking oracle. -/
theorem translate_block_fallback_witness :
    (genRun (fun _ _ => Outcome.excBlock) .primary
        (substitutedPrompt "hi".data) 0 3).1 = .raiseBlock ∧
    (translate (fun _ _ => Outcome.excBlock) "hi".data).invocations =
      [(.primary, substitutedPrompt "hi".data, 3),
       (.secondary, substitutedPrompt "hi".data, 2)] :=
  ⟨by decide, (translate_block_fallback _ _ (by decide)).1⟩

/-- C10 counterexample: a wrapped function that raises a `BaseException`
outside `Exception` (e.g. `SystemExit`) escapes the worker's
`except Exception`, leaves `result_container` empty, and the final
`result_container["result"]` lookup raises `KeyError` out of
`call_with_timeout` — so as stated ("for every wrapped function ...
never itself raises ... if the wrapped function raises it returns
(False, that exception)") the claim is false. -/
theorem call_with_timeout_raises_on_base :
    call_with_timeout .raisesBase 120 = .error "KeyError: result".data := rfl

/-- C10 amended: `call_with_timeout` is total and returns the described
pair for every wrapped call that returns, raises an `Exception`-derived
error, or overruns the join deadline: `(True, result)` on normal
return, `(False, exception)` on a caught exception, and
`(False, TimeoutError)` when the thread is still alive after
`join(timeout)`. -/
theorem call_with_timeout_total :
    (∀ v timeout, call_with_timeout (.returns v) timeout = .ok (true, .result v)) ∧
    (∀ e timeout, call_with_timeout (.raisesExc e) timeout = .ok (false, .excVal e)) ∧
    (∀ timeout, call_with_timeout .hangs timeout = .ok (false, .timeoutErr timeout)) :=
  ⟨fun _ _ => rfl, fun _ _ => rfl, fun _ => rfl⟩

theorem handleResponse_degenerate (text : List Char) (rt : Option (List Char))
    (h : degenerateResponse text rt) : handleResponse text rt = text := by
  match rt with
  | none => rfl
  | some s =>
    simp only [degenerateResponse] at h
    by_cases h1 : s = []
    · simp [handleResponse, h1]
    · by_cases h2 : pyStrip s = []
      · simp [handleResponse, h1, h2]
      · by_cases h3 : pyStrip (pyLower (pyStrip s)) ∈ noChangePhrases
        · simp [handleResponse, h1, h2, h3]
        · rcases h with h | h | h | h
          · exact absurd h h1
          · exact absurd h h2
          · exact absurd h h3
          · simp [handleResponse, h1, h2, h3, h]

theorem gpLoop_degenerate (oracle : Nat → GPOutcome) (text : List Char)
    (h : ∀ n rt, oracle n = .success rt → degenerateResponse text rt) :
    ∀ remaining attempt, gpLoop oracle text attempt remaining = text := by
  intro remaining
  induction remaining with
  | zero => intro attempt; rfl
  | succ m ih =>
    intro attempt
    rcases ho : oracle attempt with _ | rt
    · simp only [gpLoop, ho]
      exact ih (attempt + 1)
    · simp only [gpLoop, ho]
      exact handleResponse_degenerate text rt (h attempt rt ho)

/-- C7: the gender-pronoun proofing pass returns the original text
unchanged whenever every model response it can see is degenerate: a
falsy response or text, an empty corrected text, a known "no changes"
boilerplate phrase, or a corrected text with fewer than
`max(5, 20% of the original's line count)` lines — in particular (last
disjunct of `degenerateResponse`, whose `tooShortGuard` is implied by
`5 * result_lines < orig_lines`) any response with fewer than 20% of
the original's lines. -/
theorem proof_gender_pronouns_degenerate (oracle : Nat → GPOutcome)
    (text : List Char)
    (h : ∀ n rt, oracle n = .success rt → degenerateResponse text rt) :
    proof_gender_pronouns oracle text = text := by
  unfold proof_gender_pronouns
  by_cases he : pyStrip text = []
  · simp [he]
  · simp only [if_neg he]
    exact gpLoop_degenerate oracle text h 3 0

/-- Witness for `proof_gender_pronouns_degenerate`: a 30-line original
and a mock response of 5 lines (fewer than 20% of 30 would be 6, and
`5 < max(5, 6)`), which is returned unchanged. -/
theorem proof_gender_pronouns_degenerate_witness :
    (∀ n rt,
      (fun (_ : Nat) => GPOutcome.success (some ((List.replicate 5 ['b', '\n']).flatten))) n =
        .success rt →
      degenerateResponse ((List.replicate 30 ['a', '\n']).flatten) rt) ∧
    proof_gender_pronouns
      (fun _ => GPOutcome.success (some ((List.replicate 5 ['b', '\n']).flatten)))
      ((List.replicate 30 ['a', '\n']).flatten) =
      (List.replicate 30 ['a', '\n']).flatten :=
  ⟨fun _ rt hrt => by
      have h2 := GPOutcome.success.inj hrt
      rw [← h2]
      simp only [degenerateResponse]
      exact Or.inr (Or.inr (Or.inr (by decide))),
   proof_gender_pronouns_degenerate _ _ (fun _ rt hrt => by
      have h2 := GPOutcome.success.inj hrt
      rw [← h2]
      simp only [degenerateResponse]
      exact Or.inr (Or.inr (Or.inr (by decide))))⟩

theorem keyLe_total (a b : Option Nat) : keyLe a b = true ∨ keyLe b a = true := by
  cases a <;> cases b <;> simp [keyLe]
  omega

theorem keyLe_trans {a b c : Option Nat} (h1 : keyLe a b = true)
    (h2 : keyLe b c = true) : keyLe a c = true := by
  cases a <;> cases b <;> cases c <;> simp_all [keyLe]
  omega

theorem mem_insertByKey {z x : List Char} :
    ∀ {l}, z ∈ insertByKey x l ↔ z = x ∨ z ∈ l := by
  intro l
  induction l with
  | nil => simp [insertByKey]
  | cons y ys ih =>
    by_cases hk : keyLe (numeric_key y) (numeric_key x) = true
    · simp only [insertByKey, if_pos hk, List.mem_cons, ih]
      tauto
    · simp only [insertByKey, if_neg hk, List.mem_cons]

theorem pairwise_insertByKey (x : List Char) :
    ∀ l, l.Pairwise (fun a b => keyLe (numeric_key a) (numeric_key b) = true) →
      (insertByKey x l).Pairwise
        (fun a b => keyLe (numeric_key a) (numeric_key b) = true) := by
  intro l
  induction l with
  | nil => intro _; simp [insertByKey]
  | cons y ys ih =>
    intro h
    rw [List.pairwise_cons] at h
    by_cases hk : keyLe (numeric_key y) (numeric_key x) = true
    · rw [insertByKey, if_pos hk, List.pairwise_cons]
      refine ⟨fun z hz => ?_, ih h.2⟩
      rcases mem_insertByKey.1 hz with rfl | hz
      · exact hk
      · exact h.1 z hz
    · rw [insertByKey, if_neg hk, List.pairwise_cons]
      have hxy : keyLe (numeric_key x) (numeric_key y) = true := by
        rcases keyLe_total (numeric_key y) (numeric_key x) with hc | hc
        · exact absurd hc hk
        · exact hc
      refine ⟨fun z hz => ?_, List.pairwise_cons.2 h⟩
      rcases List.mem_cons.1 hz with rfl | hz
      · exact hxy
      · exact keyLe_trans hxy (h.1 z hz)

theorem sortByNumericKey_pairwise (l : List (List Char)) :
    (sortByNumericKey l).Pairwise
      (fun a b => keyLe (numeric_key a) (numeric_key b) = true) := by
  induction l with
  | nil => simp [sortByNumericKey]
  | cons x xs ih => exact pairwise_insertByKey x _ ih

theorem insertByKey_perm (x : List Char) :
    ∀ l, (insertByKey x l).Perm (x :: l) := by
  intro l
  induction l with
  | nil => simp [insertByKey]
  | cons y ys ih =>
    by_cases hk : keyLe (numeric_key y) (numeric_key x) = true
    · rw [insertByKey, if_pos hk]
      exact (ih.cons y).trans (List.Perm.swap x y ys)
    · rw [insertByKey, if_neg hk]

theorem sortByNumericKey_perm (l : List (List Char)) :
    (sortByNumericKey l).Perm l := by
  induction l with
  | nil => simp [sortByNumericKey]
  | cons x xs ih =>
    exact (insertByKey_perm x (sortByNumericKey xs)).trans (ih.cons x)

/-- C9: chapters are processed in the natural numeric order of the
ordinal embedded in the filename (`main` sorts `text_files` once with
`numeric_key` and both the glossary-build and translation phases
iterate that one list): the three example filenames sort numerically
rather than lexicographically; in general the processed list is a
permutation of the input that is sorted under `keyLe`, whose order puts
every digitless filename (`float('inf')` key, `none`) after every
digit-bearing one. -/
theorem chapters_natural_order :
    sortByNumericKey
        ["chapter_2.txt".data, "chapter_10.txt".data, "chapter_1.txt".data] =
      ["chapter_1.txt".data, "chapter_2.txt".data, "chapter_10.txt".data] ∧
    (∀ l, (sortByNumericKey l).Pairwise
      (fun a b => keyLe (numeric_key a) (numeric_key b) = true)) ∧
    (∀ l, (sortByNumericKey l).Perm l) :=
  ⟨by decide, sortByNumericKey_pairwise, sortByNumericKey_perm⟩

/-- C4 counterexample: `main`'s translation loop (main_ph.py lines
111-138) samples `cancel_flag()` once per chapter, BEFORE
`pause_event.wait()`, and never again after the resume.  With a
cancellation requested while the run is blocked on chapter 0's pause
(the flag reads false at checkpoint 0 and true from then on), chapter
`c1` is still translated and written after the resume — the run does
not stop before the next chapter starts once unblocked, and the trace
holds no cancel check between `waitPause 0` and `process 0`. -/
theorem cancel_not_rechecked_after_resume :
    phase2 (fun i => decide (1 ≤ i)) (fun f => some ('T' :: f))
        ["c1".data, "c2".data] 0 =
      ([("c1".data, 'T' :: "c1".data)],
       [.checkCancel 0, .waitPause 0, .process 0, .checkCancel 1]) := by
  decide

theorem phase2_take (cancelAt : Nat → Bool) (tr : List Char → Option (List Char)) :
    ∀ (files : List (List Char)) (k s : Nat),
      (∀ j, j < k → cancelAt (s + j) = false) →
      k ≤ files.length →
      (k < files.length → cancelAt (s + k) = true) →
      phase2 cancelAt tr files s =
        ((files.take k).filterMap fun f => (tr f).map fun t => (f, t),
         expectedTrace (decide (k < files.length)) s k) := by
  intro files
  induction files with
  | nil =>
    intro k s h1 h2 h3
    have hk : k = 0 := by simpa using h2
    subst hk
    simp [phase2, expectedTrace]
  | cons f fs ih =>
    intro k s h1 h2 h3
    cases k with
    | zero =>
      have hc : cancelAt s = true := by
        have := h3 (by simp)
        simpa using this
      simp [phase2, hc, expectedTrace]
    | succ j =>
      have hc0 : ¬ (cancelAt s = true) := by
        have := h1 0 (by omega)
        simp at this
        simp [this]
      have hrec := ih j (s + 1)
        (fun i hi => by
          have := h1 (i + 1) (by omega)
          rw [show s + (i + 1) = s + 1 + i by omega] at this
          exact this)
        (by simpa using h2)
        (fun hlt => by
          have := h3 (by simpa using hlt)
          rw [show s + (j + 1) = s + 1 + j by omega] at this
          exact this)
      rcases htr : tr f with _ | out <;>
        simp only [phase2, if_neg hc0, htr, hrec, List.take_succ_cons,
          List.filterMap_cons, Option.map_none, Option.map_some,
          expectedTrace, List.length_cons, Nat.succ_lt_succ_iff] <;> rfl

/-- C4 amended: the cancel flag is sampled exactly once per chapter, at
the checkpoint BEFORE the pause wait, with no re-check after a resume;
if the flag first reads true at chapter `k`'s checkpoint then exactly
the first `k` chapters are processed, the written outputs are exactly
the successful translations of those `k` chapters (later cancellation
does not touch them), and the trace is `k` blocks of
`checkCancel, waitPause, process` followed by the final `checkCancel` —
so a cancellation requested while blocked on chapter `i`'s pause is
honoured only at chapter `i + 1`'s checkpoint, after chapter `i` has
been processed. -/
theorem phase2_cancel_boundary (cancelAt : Nat → Bool)
    (tr : List Char → Option (List Char)) (files : List (List Char)) (k : Nat)
    (h1 : ∀ j, j < k → cancelAt j = false)
    (h2 : k ≤ files.length)
    (h3 : k < files.length → cancelAt k = true) :
    phase2 cancelAt tr files 0 =
      ((files.take k).filterMap fun f => (tr f).map fun t => (f, t),
       expectedTrace (decide (k < files.length)) 0 k) := by
  have := phase2_take cancelAt tr files k 0
    (fun j hj => by simpa using h1 j hj) h2
    (fun hlt => by simpa using h3 hlt)
  exact this

/-- Witness for `phase2_cancel_boundary`: three chapters, cancellation
first observed at chapter 1's checkpoint; chapter 0 alone is processed. -/
theorem phase2_cancel_boundary_witness :
    (∀ j, j < 1 → (fun i => decide (1 ≤ i)) j = false) ∧
    phase2 (fun i => decide (1 ≤ i)) (fun f => some ('T' :: f))
        ["a1".data, "a2".data, "a3".data] 0 =
      ((["a1".data, "a2".data, "a3".data].take 1).filterMap
         fun f => ((fun g => some ('T' :: g)) f).map fun t => (f, t),
       expectedTrace (decide (1 < (["a1".data, "a2".data, "a3".data] : List (List Char)).length)) 0 1) :=
  ⟨by decide,
   phase2_cancel_boundary _ _ _ 1 (by decide) (by decide) (fun _ => by decide)⟩

theorem splitOnSubF_of_not_contains (sep : List Char) :
    ∀ fuel s, s.length ≤ fuel → containsSub sep s = false →
      splitOnSubF sep fuel s = [s] := by
  intro fuel
  induction fuel with
  | zero =>
    intro s hlen _
    have : s = [] := by
      cases s with
      | nil => rfl
      | cons c r => simp at hlen
    subst this
    rfl
  | succ g ih =>
    intro s hlen hcon
    cases s with
    | nil => rfl
    | cons c rest =>
      rw [containsSub_cons, Bool.or_eq_false_iff] at hcon
      have hbw : ¬ (sep ≠ [] ∧ beginsWith sep (c :: rest) = true) := by
        intro h
        rw [hcon.1] at h
        exact absurd h.2 (by simp)
      rw [splitOnSubF, if_neg hbw,
        ih rest (by simpa using Nat.le_of_succ_le_succ hlen) hcon.2]

theorem splitOnSub_of_not_contains {sep s : List Char}
    (hcon : containsSub sep s = false) : splitOnSub sep s = [s] :=
  splitOnSubF_of_not_contains sep s.length s (Nat.le_refl _) hcon

/-- C6: for any well-formed master glossary (one containing the START
marker line), `split_glossary` succeeds, never modifies the master
file, and is idempotent: running it a second time with no intervening
build recomputes byte-identical `name_glossary.txt` and
`context_glossary.txt` contents from the unchanged master. -/
theorem split_glossary_idempotent (d : GlossaryDir)
    (h : containsSub glossStart d.master = true) :
    ∃ e, split_glossary d = .ok e ∧ e.master = d.master ∧
      split_glossary e = .ok e := by
  have hcond : ¬ (containsSub glossStart d.master = false) := by simp [h]
  rcases hm : splitMasterContent d.master with e | p
  · rw [splitMasterContent, if_neg hcond] at hm
    exact absurd hm (by simp)
  · refine ⟨⟨d.master, some p.1, some p.2⟩, ?_, rfl, ?_⟩
    · rw [split_glossary, hm]
    · rw [split_glossary]
      simp only
      rw [hm]

/-- Witness for `split_glossary_idempotent` at a concrete well-formed
master file. -/
theorem split_glossary_idempotent_witness :
    containsSub glossStart
      (glossStart ++ "\nAlpha => Beta => he/him\n".data ++ glossEnd) = true ∧
    ∃ e, split_glossary
        ⟨glossStart ++ "\nAlpha => Beta => he/him\n".data ++ glossEnd,
         none, none⟩ = .ok e ∧
      e.master = glossStart ++ "\nAlpha => Beta => he/him\n".data ++ glossEnd ∧
      split_glossary e = .ok e :=
  ⟨by decide, split_glossary_idempotent _ (by decide)⟩

/-- C8 counterexample: loading a glossary file whose content lacks the
START marker makes `split_glossary` raise
`ValueError("Invalid glossary format: missing START marker")`
(context_aware_glossary.py lines 27-28) rather than ignore the file, so
"a glossary file missing its expected marker line is ignored rather
than causing an exception to propagate" is false as stated. -/
theorem split_raises_on_missing_marker :
    splitMasterContent "Alpha => Beta => he/him".data =
      .error "Invalid glossary format: missing START marker".data := by
  rw [splitMasterContent, if_pos (by decide)]

/-- C8 amended: malformed persisted glossary data never aborts the
build phase: `build_glossary`'s load treats a master without the START
marker as empty instead of raising, and its candidate parse silently
drops every non-three-field response line; `split_glossary`, however,
raises `ValueError` on a master missing the START marker (its callers
in `build_glossary` and `main` wrap the call in `try/except`). -/
theorem malformed_glossary_handling :
    (∀ content, containsSub glossStart content = false →
      loadExistingEntries content = []) ∧
    (∀ lines, parseFromLines lines =
      parseFromLines (lines.filter
        fun l => (splitOnSub arrowSep l).length = 3)) ∧
    (∀ content, containsSub glossStart content = false →
      splitMasterContent content =
        .error "Invalid glossary format: missing START marker".data) := by
  refine ⟨?_, ?_, ?_⟩
  · intro content hcon
    rw [loadExistingEntries, splitOnSub_of_not_contains hcon]
  · intro lines
    induction lines with
    | nil => rfl
    | cons l ls ih =>
      simp only [parseFromLines] at ih ⊢
      by_cases h3 : (splitOnSub arrowSep l).length = 3
      · rw [List.filter_cons_of_pos (by simpa using h3),
          List.filterMap_cons, List.filterMap_cons, ih]
      · have hnone : candidateOfLine l = none := by
          rw [candidateOfLine]
          simp [h3]
        rw [List.filter_cons_of_neg (by simpa using h3),
          List.filterMap_cons, hnone, ih]
  · intro content hcon
    rw [splitMasterContent, if_pos hcon]

/-- Witness for `malformed_glossary_handling` at a concrete markerless
content and a response with a malformed line. -/
theorem malformed_glossary_handling_witness :
    loadExistingEntries "no marker here".data = [] ∧
    parseFromLines ["not a glossary line".data, "A => B => he/him".data] =
      parseFromLines (["not a glossary line".data,
        "A => B => he/him".data].filter
          fun l => (splitOnSub arrowSep l).length = 3) ∧
    splitMasterContent "no marker here".data =
      .error "Invalid glossary format: missing START marker".data :=
  ⟨malformed_glossary_handling.1 _ (by decide),
   malformed_glossary_handling.2.1 _,
   malformed_glossary_handling.2.2 _ (by decide)⟩

/-- C5 counterexample: `Glossary.normalize_term` is not the algorithm
the claim prescribes.  The code removes every character outside
`[\w\s]` — including the hyphen the spec's algorithm preserves for
honorific suffixes — collapses whitespace runs to a single space
instead of stripping all whitespace, and applies no Unicode
normalization: on `"Rin-chan"` the two disagree (on `"a b"` as well:
`"a b"` vs `"ab"`). -/
theorem normalize_term_differs_from_spec :
    normalize_term "Rin-chan".data = "rinchan".data ∧
    specNormalizeTerm "Rin-chan".data = "rin-chan".data ∧
    normalize_term "Rin-chan".data ≠ specNormalizeTerm "Rin-chan".data := by
  decide

theorem selectStep_eq (seen upd : List (List Char)) (e : List Char) :
    selectStep (seen, upd) e =
      if (splitOnSub arrowSep e).length = 3 then
        (if normalize_term (pyStrip ((splitOnSub arrowSep e).getD 0 [])) ∈ seen
         then (seen, upd)
         else (normalize_term (pyStrip ((splitOnSub arrowSep e).getD 0 [])) :: seen,
               upd ++ [e]))
      else (seen, upd) := rfl

theorem selectStep_fold_preserves (X : List Char) :
    ∀ (cands seen upd : List (List Char)),
      X ∈ seen → (∀ u ∈ upd, candidateNormKey u ≠ X) →
      ∀ u ∈ (cands.foldl selectStep (seen, upd)).2, candidateNormKey u ≠ X := by
  intro cands
  induction cands with
  | nil =>
    intro seen upd _ hupd u hu
    exact hupd u hu
  | cons e es ih =>
    intro seen upd hX hupd u hu
    rw [List.foldl_cons] at hu
    by_cases h3 : (splitOnSub arrowSep e).length = 3
    · by_cases hseen :
        normalize_term (pyStrip ((splitOnSub arrowSep e).getD 0 [])) ∈ seen
      · have hstep : selectStep (seen, upd) e = (seen, upd) := by
          rw [selectStep_eq, if_pos h3, if_pos hseen]
        rw [hstep] at hu
        exact ih seen upd hX hupd u hu
      · have hstep : selectStep (seen, upd) e =
            (normalize_term (pyStrip ((splitOnSub arrowSep e).getD 0 [])) :: seen,
             upd ++ [e]) := by
          rw [selectStep_eq, if_pos h3, if_neg hseen]
        rw [hstep] at hu
        refine ih _ _ (List.mem_cons_of_mem _ hX) ?_ u hu
        intro v hv
        rcases List.mem_append.1 hv with hv | hv
        · exact hupd v hv
        · rw [List.mem_singleton.1 hv]
          intro hEq
          rw [candidateNormKey] at hEq
          rw [hEq] at hseen
          exact hseen hX
    · have hstep : selectStep (seen, upd) e = (seen, upd) := by
        rw [selectStep_eq, if_neg h3]
      rw [hstep] at hu
      exact ih seen upd hX hupd u hu

/-- C5 amended: `build_glossary` deduplicates by the code's actual
`normalize_term` (remove all characters outside word characters and
whitespace — the hyphen included —, collapse whitespace runs to one
space, strip, lowercase, with no Unicode normalization): for a master
glossary already containing a three-field entry whose original
normalizes to `X`, no entry appended by a build has an original
normalizing to that same `X`. -/
theorem build_no_duplicate_normalized (content resp entry : List Char)
    (hmem : entry ∈ loadExistingEntries content)
    (hfields : (splitOnSub arrowSep entry).length = 3) :
    ∀ u ∈ buildGlossaryUpdate content resp,
      candidateNormKey u ≠
        normalize_term ((splitOnSub arrowSep entry).getD 0 []) := by
  intro u hu
  rw [buildGlossaryUpdate] at hu
  by_cases hng : pyStrip resp = [] ∨
      containsSub "No named entities found".data (pyStrip resp) = true
  · rw [if_pos hng] at hu
    simp at hu
  · rw [if_neg hng] at hu
    have hX : normalize_term ((splitOnSub arrowSep entry).getD 0 []) ∈
        existingNormalizedTerms (loadExistingEntries content) := by
      rw [existingNormalizedTerms]
      refine List.mem_filterMap.2 ⟨entry, hmem, ?_⟩
      simp [hfields]
    rw [selectNewEntries] at hu
    exact selectStep_fold_preserves _ _ _ _ hX
      (fun v hv => absurd hv (List.not_mem_nil v)) u hu

set_option maxRecDepth 8000 in
/-- Witness for `build_no_duplicate_normalized`: a master holding
`Foo => Bar => he/him` and a response whose first candidate (`foo`,
differing only in case) is a normalized duplicate; only the genuinely
new candidate survives the filter. -/
theorem build_no_duplicate_normalized_witness :
    "Foo => Bar => he/him".data ∈
      loadExistingEntries
        (glossStart ++ "\nFoo => Bar => he/him\n".data ++ glossEnd) ∧
    (splitOnSub arrowSep "Foo => Bar => he/him".data).length = 3 ∧
    buildGlossaryUpdate
        (glossStart ++ "\nFoo => Bar => he/him\n".data ++ glossEnd)
        "foo => Baz => she/her\nNew => Thing => it/its".data =
      ["New => Thing => it/its".data] ∧
    ∀ u ∈ buildGlossaryUpdate
        (glossStart ++ "\nFoo => Bar => he/him\n".data ++ glossEnd)
        "foo => Baz => she/her\nNew => Thing => it/its".data,
      candidateNormKey u ≠
        normalize_term
          ((splitOnSub arrowSep "Foo => Bar => he/him".data).getD 0 []) :=
  ⟨by decide, by decide, by decide,
   build_no_duplicate_normalized _ _ _ (by decide) (by decide)⟩

/-- C2 counterexample: the claim quantifies over every model reply
("regardless of what text the model returns"), but the restoration step
can only map placeholder tokens the reply still contains.  For the
input `<img src=cover>` (one reserved-pattern occurrence) and a model
that replies `hello`, the successful result is `hello`, which contains
zero occurrences of the original placeholder value. -/
theorem placeholder_not_unconditional :
    (imgTagSub "<img src=cover>".data).2 = ["<img src=cover>".data] ∧
    (translate (fun _ _ => .ok "hello".data) "<img src=cover>".data).result =
      some "hello".data ∧
    containsSub "<img src=cover>".data "hello".data = false := by
  refine ⟨by decide, ?_, by decide⟩
  decide

theorem restoreScanF_cons (tags : List (List Char)) (fuel : Nat) (c : Char)
    (rest : List Char) :
    restoreScanF tags (fuel + 1) (c :: rest) =
      if beginsWith phOpen (c :: rest) = true then
        (if (((c :: rest).drop 12).takeWhile Char.isDigit).isEmpty = false ∧
            beginsWith ['_', '_']
              (((c :: rest).drop 12).dropWhile Char.isDigit) = true then
          (if digitsToNat (((c :: rest).drop 12).takeWhile Char.isDigit) <
              tags.length then
            tags.getD
              (digitsToNat (((c :: rest).drop 12).takeWhile Char.isDigit)) []
          else
            (c :: rest).take
              (12 + (((c :: rest).drop 12).takeWhile Char.isDigit).length + 2)) ++
            restoreScanF tags fuel
              ((((c :: rest).drop 12).dropWhile Char.isDigit).drop 2)
        else c :: restoreScanF tags fuel rest)
      else c :: restoreScanF tags fuel rest := rfl

theorem restoreScanF_nil (tags : List (List Char)) :
    ∀ fuel, restoreScanF tags fuel [] = [] := by
  intro fuel
  cases fuel <;> rfl

theorem dropWhile_length_le (p : Char → Bool) :
    ∀ l : List Char, (l.dropWhile p).length ≤ l.length := by
  intro l
  induction l with
  | nil => simp
  | cons c rest ih =>
    rw [List.dropWhile_cons]
    by_cases hp : p c = true
    · simp only [hp, if_true]
      simp only [List.length_cons]
      omega
    · simp [hp]

theorem restoreScanF_fuel (tags : List (List Char)) :
    ∀ f1 f2 s, s.length ≤ f1 → s.length ≤ f2 →
      restoreScanF tags f1 s = restoreScanF tags f2 s := by
  intro f1
  induction f1 with
  | zero =>
    intro f2 s h1 _
    have hs : s = [] := List.eq_nil_of_length_eq_zero (Nat.le_zero.1 h1)
    subst hs
    rw [restoreScanF_nil, restoreScanF_nil]
  | succ g1 ih =>
    intro f2 s h1 h2
    cases s with
    | nil => rw [restoreScanF_nil, restoreScanF_nil]
    | cons c rest =>
      cases f2 with
      | zero => simp at h2
      | succ g2 =>
        rw [restoreScanF_cons tags g1, restoreScanF_cons tags g2]
        by_cases hbw : beginsWith phOpen (c :: rest) = true
        · rw [if_pos hbw, if_pos hbw]
          have hconslen : (c :: rest).length = rest.length + 1 := by simp
          have h12 : 12 ≤ (c :: rest).length := by
            have := beginsWith_length hbw
            rw [show phOpen.length = 12 from rfl] at this
            exact this
          by_cases hguard :
              (((c :: rest).drop 12).takeWhile Char.isDigit).isEmpty = false ∧
              beginsWith ['_', '_']
                (((c :: rest).drop 12).dropWhile Char.isDigit) = true
          · rw [if_pos hguard, if_pos hguard]
            have hlenrec :
                (((((c :: rest).drop 12).dropWhile Char.isDigit).drop 2)).length ≤
                  (c :: rest).length - 12 := by
              have ha := dropWhile_length_le Char.isDigit ((c :: rest).drop 12)
              have hb := List.length_drop 12 (c :: rest)
              have hcd := List.length_drop 2
                (((c :: rest).drop 12).dropWhile Char.isDigit)
              omega
            have e1 : (((((c :: rest).drop 12).dropWhile Char.isDigit).drop 2)).length ≤ g1 := by
              simp only [List.length_cons] at h1
              omega
            have e2 : (((((c :: rest).drop 12).dropWhile Char.isDigit).drop 2)).length ≤ g2 := by
              simp only [List.length_cons] at h2
              omega
            rw [ih g2 _ e1 e2]
          · rw [if_neg hguard, if_neg hguard]
            rw [ih g2 rest (by simpa using Nat.le_of_succ_le_succ h1)
              (by simpa using Nat.le_of_succ_le_succ h2)]
        · rw [if_neg hbw, if_neg hbw]
          rw [ih g2 rest (by simpa using Nat.le_of_succ_le_succ h1)
            (by simpa using Nat.le_of_succ_le_succ h2)]

theorem restoreScanF_no_token (tags : List (List Char)) :
    ∀ fuel s, s.length ≤ fuel → containsSub phOpen s = false →
      restoreScanF tags fuel s = s := by
  intro fuel
  induction fuel with
  | zero =>
    intro s h1 _
    have hs : s = [] := List.eq_nil_of_length_eq_zero (Nat.le_zero.1 h1)
    subst hs
    rfl
  | succ g ih =>
    intro s h1 h2
    cases s with
    | nil => rfl
    | cons c rest =>
      rw [containsSub_cons, Bool.or_eq_false_iff] at h2
      rw [restoreScanF_cons, if_neg (by simp [h2.1])]
      rw [ih rest (by simpa using Nat.le_of_succ_le_succ h1) h2.2]

theorem restoreScanF_hit (tags : List (List Char)) (fuel : Nat)
    (d r : List Char) (hd : d ≠ []) (hdig : ∀ c ∈ d, c.isDigit = true)
    (hidx : digitsToNat d < tags.length) :
    restoreScanF tags (fuel + 1) (phOpen ++ (d ++ ('_' :: '_' :: r))) =
      tags.getD (digitsToNat d) [] ++ restoreScanF tags fuel r := by
  have hshape : phOpen ++ (d ++ ('_' :: '_' :: r)) =
      '_' :: ('_' :: ('I' :: ('M' :: ('A' :: ('G' :: ('E' :: ('_' :: ('T' ::
        ('A' :: ('G' :: ('_' :: (d ++ ('_' :: '_' :: r))))))))))))) := rfl
  rw [hshape, restoreScanF_cons, ← hshape]
  have htake : ((phOpen ++ (d ++ ('_' :: '_' :: r))).drop 12).takeWhile
      Char.isDigit = d := by
    rw [show (12 : Nat) = phOpen.length from rfl, List.drop_left,
      takeWhile_append_all hdig]
    simp [List.takeWhile_cons]
  have hdrop : ((phOpen ++ (d ++ ('_' :: '_' :: r))).drop 12).dropWhile
      Char.isDigit = '_' :: '_' :: r := by
    rw [show (12 : Nat) = phOpen.length from rfl, List.drop_left,
      dropWhile_append_all hdig]
    simp [List.dropWhile_cons]
  rw [if_pos (beginsWith_append phOpen _)]
  rw [htake, hdrop]
  have hcond : d.isEmpty = false ∧
      beginsWith ['_', '_'] ('_' :: '_' :: r) = true := by
    constructor
    · cases d with
      | nil => exact absurd rfl hd
      | cons a b => rfl
    · simp [beginsWith]
  rw [if_pos hcond, if_pos hidx]
  rfl

theorem takeWhile_digit_phOpen_drop (j : Nat) (hj : j < 12)
    (z : List Char) :
    ((phOpen.drop j) ++ z).takeWhile Char.isDigit = [] := by
  interval_cases j <;>
    exact List.takeWhile_cons_of_neg (by decide)

theorem natDigits_length_pos (n : Nat) : 0 < (natDigits n).length := by
  cases hnd : natDigits n with
  | nil => exact absurd hnd (natDigits_ne_nil n)
  | cons a b => simp

theorem placeholderTok_length (k : Nat) :
    (placeholderTok k).length = 12 + (natDigits k).length + 2 := by
  simp [placeholderTok, phOpen]
  omega

theorem restore_step (tags : List (List Char)) (k : Nat)
    (hk : k < tags.length) :
    ∀ fuel s r, (s ++ (placeholderTok k ++ r)).length ≤ fuel →
      containsSub phOpen s = false →
      restoreScanF tags fuel (s ++ (placeholderTok k ++ r)) =
        s ++ (tags.getD k [] ++ restoreScanF tags r.length r) := by
  intro fuel
  induction fuel with
  | zero =>
    intro s r h1 _
    exfalso
    have hp := placeholderTok_length k
    have hnp := natDigits_length_pos k
    simp only [List.length_append] at h1
    omega
  | succ g ih =>
    intro s r h1 h2
    have hassoc : placeholderTok k ++ r =
        phOpen ++ ((natDigits k) ++ ('_' :: '_' :: r)) := by
      simp [placeholderTok, List.append_assoc]
    cases s with
    | nil =>
      simp only [List.nil_append]
      rw [hassoc, restoreScanF_hit tags g (natDigits k) r
        (natDigits_ne_nil k) (natDigits_all_digit k)
        (by rw [digitsToNat_natDigits]; exact hk),
        digitsToNat_natDigits]
      have hr : r.length ≤ g := by
        have hp := placeholderTok_length k
        have hnp := natDigits_length_pos k
        simp only [List.nil_append, List.length_append] at h1
        omega
      rw [restoreScanF_fuel tags g r.length r hr (Nat.le_refl _)]
    | cons c s1 =>
      rw [containsSub_cons, Bool.or_eq_false_iff] at h2
      have hcons : (c :: s1) ++ (placeholderTok k ++ r) =
          c :: (s1 ++ (placeholderTok k ++ r)) := rfl
      have hlen1 : (s1 ++ (placeholderTok k ++ r)).length ≤ g := by
        rw [hcons] at h1
        simpa using Nat.le_of_succ_le_succ h1
      by_cases hbw :
          beginsWith phOpen (c :: (s1 ++ (placeholderTok k ++ r))) = true
      · by_cases hm : 12 ≤ s1.length + 1
        · exfalso
          obtain ⟨t, ht⟩ := (beginsWith_iff _ _).1 hbw
          have htake : (c :: s1).take 12 = phOpen := by
            have hx : (c :: (s1 ++ (placeholderTok k ++ r)))
                = (c :: s1) ++ (placeholderTok k ++ r) := rfl
            rw [hx] at ht
            have h1x : ((c :: s1) ++ (placeholderTok k ++ r)).take 12 =
                (c :: s1).take 12 :=
              List.take_append_of_le_length (by simpa using hm)
            have h2x : (phOpen ++ t).take 12 = phOpen := by
              rw [show (12 : Nat) = phOpen.length from rfl, List.take_left]
            rw [ht, h2x] at h1x
            exact h1x.symm
          have hsw : beginsWith phOpen (c :: s1) = true := by
            refine (beginsWith_iff _ _).2 ⟨(c :: s1).drop 12, ?_⟩
            rw [← htake, List.take_append_drop]
          rw [h2.1] at hsw
          exact absurd hsw (by simp)
        · have hmlt : s1.length + 1 < 12 := by omega
          have hdropeq :
              ((c :: (s1 ++ (placeholderTok k ++ r)))).drop 12 =
              phOpen.drop (12 - (s1.length + 1)) ++
                ((natDigits k) ++ ('_' :: '_' :: r)) := by
            have hx : (c :: (s1 ++ (placeholderTok k ++ r)))
                = (c :: s1) ++ (placeholderTok k ++ r) := rfl
            rw [hx, List.drop_append_eq_append_drop,
              List.drop_eq_nil_of_le (by simp; omega), List.nil_append,
              hassoc, List.drop_append_eq_append_drop]
            rw [show (12 - (c :: s1).length - phOpen.length) = 0 by
              rw [show phOpen.length = 12 from rfl]
              simp
              omega, List.drop_zero]
            rw [show (c :: s1).length = s1.length + 1 from rfl]
          have hdig_empty :
              (((c :: (s1 ++ (placeholderTok k ++ r)))).drop 12).takeWhile
                Char.isDigit = [] := by
            rw [hdropeq]
            exact takeWhile_digit_phOpen_drop _ (by omega) _
          rw [hcons, restoreScanF_cons, if_pos hbw, hdig_empty]
          rw [if_neg (by simp)]
          rw [ih s1 r hlen1 h2.2]
          rfl
      · rw [hcons, restoreScanF_cons, if_neg hbw]
        rw [ih s1 r hlen1 h2.2]
        rfl

theorem restore_interleave (tags : List (List Char)) :
    ∀ (ss : List (List Char)) (k : Nat),
      (∀ s ∈ ss, containsSub phOpen s = false) →
      k + ss.length = tags.length + 1 →
      restoreScanF tags (segsWithTokens k ss).length (segsWithTokens k ss) =
        segsWithTags tags k ss := by
  intro ss
  induction ss with
  | nil =>
    intro k _ _
    rw [show segsWithTokens k [] = [] from rfl, restoreScanF_nil]
    rfl
  | cons s tail ih =>
    intro k h1 h2
    cases tail with
    | nil =>
      rw [show segsWithTokens k [s] = s from rfl,
        show segsWithTags tags k [s] = s from rfl]
      exact restoreScanF_no_token tags s.length s (Nat.le_refl _)
        (h1 s (by simp))
    | cons s2 ts =>
      have hk : k < tags.length := by
        simp only [List.length_cons] at h2
        omega
      have htok : segsWithTokens k (s :: s2 :: ts) =
          s ++ (placeholderTok k ++ segsWithTokens (k + 1) (s2 :: ts)) := by
        simp [segsWithTokens]
      have htags : segsWithTags tags k (s :: s2 :: ts) =
          s ++ (tags.getD k [] ++ segsWithTags tags (k + 1) (s2 :: ts)) := by
        simp [segsWithTags]
      rw [htok, restore_step tags k hk _ s (segsWithTokens (k + 1) (s2 :: ts))
        (Nat.le_refl _) (h1 s (by simp))]
      rw [ih (k + 1) (fun x hx => h1 x (by simp [hx]))
        (by simp only [List.length_cons] at h2 ⊢; omega)]
      rw [htags]

/-- C2 amended: `Translator.translate` preserves the reserved image
tags under the documented contract on the model: for an input whose
image-tag extraction stores `N` tags, if the primary call returns a
reply that keeps the `N` substituted placeholder tokens
`__IMAGE_TAG_0__ .. __IMAGE_TAG_{N-1}__` in order, separated by
segments free of the placeholder literal, then the successful result is
exactly those segments with the `N` original tag values restored, in
the same relative order.  (The unconditional claim fails when the model
drops a token: see the counterexample.) -/
theorem translate_preserves_placeholders (oracle : Nat → List Char → Outcome)
    (text : List Char) (ss : List (List Char))
    (hreply : (genRun oracle .primary (substitutedPrompt text) 0 3).1 =
      .retText (segsWithTokens 0 ss))
    (hss : ∀ s ∈ ss, containsSub phOpen s = false)
    (hlen : ss.length = (imgTagSub text).2.length + 1)
    (hne : segsWithTokens 0 ss ≠ []) :
    (translate oracle text).result =
      some (segsWithTags (imgTagSub text).2 0 ss) := by
  rcases hp : genRun oracle .primary (substitutedPrompt text) 0 3
    with ⟨res, n, tr⟩
  rw [hp] at hreply
  simp only at hreply
  subst hreply
  show (translate oracle text).result = _
  rw [translate]
  simp only [hp]
  rw [if_neg hne]
  rw [show restoreTags (imgTagSub text).2 (segsWithTokens 0 ss) =
    restoreScanF (imgTagSub text).2 (segsWithTokens 0 ss).length
      (segsWithTokens 0 ss) from rfl]
  rw [restore_interleave (imgTagSub text).2 ss 0 hss (by omega)]

/-- Witness for `translate_preserves_placeholders`: the input
`A<img src=pic>B` stores one tag; a model replying
`x__IMAGE_TAG_0__y` yields `x<img src=pic>y`. -/
theorem translate_preserves_placeholders_witness :
    (genRun (fun _ _ => .ok (segsWithTokens 0 ["x".data, "y".data]))
        .primary (substitutedPrompt "A<img src=pic>B".data) 0 3).1 =
      .retText (segsWithTokens 0 ["x".data, "y".data]) ∧
    segsWithTokens 0 ["x".data, "y".data] = "x__IMAGE_TAG_0__y".data ∧
    segsWithTags (imgTagSub "A<img src=pic>B".data).2 0
        ["x".data, "y".data] = "x<img src=pic>y".data ∧
    (translate (fun _ _ => .ok (segsWithTokens 0 ["x".data, "y".data]))
        "A<img src=pic>B".data).result =
      some (segsWithTags (imgTagSub "A<img src=pic>B".data).2 0
        ["x".data, "y".data]) :=
  ⟨by decide, by decide, by decide,
   translate_preserves_placeholders _ _ _ (by decide) (by decide)
     (by decide) (by decide)⟩

end GeminiTL

